import Mathlib

/-!
Shallow embedding of the `pd` interactive parent-directory navigator
(`src/main.rs`), instantiated for the Unix platform (path separator `'/'`,
no drive prefixes, the `cfg(unix)` build of the event handlers).

Paths and path segments are modelled as `List Char`.  Machine integers are
modelled as `Nat`/`Int`; the one place where wrap-around matters
(`select_part_at_column` accumulates display widths in a `u16`) is modelled
with an explicit `% 65536`.
-/

set_option autoImplicit false

namespace Pd

/-- A path component, as produced by Rust's `std::path::Components` iterator.
`pfx` corresponds to `Component::Prefix` (Windows drive prefixes); the Unix
parser below never produces it, but `split_path` handles it as the source
does. -/
inductive Component where
  | pfx (s : List Char)
  | rootDir
  | curDir
  | parentDir
  | normal (s : List Char)
deriving DecidableEq, Repr

/-- Split a character list at every `'/'`, keeping empty chunks.  `acc` holds
the (reversed) characters of the chunk currently being read. -/
def splitAux : List Char → List Char → List (List Char)
  | [], acc => [acc.reverse]
  | c :: rest, acc =>
    if c = '/' then acc.reverse :: splitAux rest [] else splitAux rest (c :: acc)

/-- All chunks of a path delimited by `'/'` (empty chunks included). -/
def splitSlash (l : List Char) : List (List Char) :=
  splitAux l []

/-- How Rust's component iterator classifies one non-empty name between
separators: `"."` is normalized away (when not at the very front of a
relative path), `".."` is `ParentDir`, anything else is `Normal`. -/
def nameToComp (n : List Char) : Option Component :=
  if n = ['.'] then none
  else if n = ['.', '.'] then some Component.parentDir
  else some (Component.normal n)

/-- Classify a list of names, dropping normalized-away `"."` names. -/
def convNames (ns : List (List Char)) : List Component :=
  ns.filterMap nameToComp

/-- The non-empty names of a path, in order. -/
def pathNames (p : List Char) : List (List Char) :=
  (splitSlash p).filter (fun n => !n.isEmpty)

/-- Rust's `Path::components()` on Unix: a leading `'/'` becomes `RootDir`;
repeated separators and interior `"."` names are normalized away; a leading
`"."` of a relative path is kept as `CurDir`; `".."` becomes `ParentDir`. -/
def components (p : List Char) : List Component :=
  if p.head? = some '/' then Component.rootDir :: convNames (pathNames p)
  else
    match pathNames p with
    | [] => []
    | n :: rest =>
      if n = ['.'] then Component.curDir :: convNames rest else convNames (n :: rest)

/-- The component walk of `fn split_path` (src/main.rs:309-342): each
component becomes a display segment carrying its trailing separator, except
the last; `.`/`..` components are dropped (`_ => continue`). -/
def splitPathAux : List Component → List (List Char)
  | [] => []
  | Component.pfx s :: Component.rootDir :: rest2 => (s ++ ['/']) :: splitPathAux rest2
  | Component.pfx s :: rest => s :: splitPathAux rest
  | Component.rootDir :: rest => ['/'] :: splitPathAux rest
  | Component.normal s :: rest => (if rest.isEmpty then s else s ++ ['/']) :: splitPathAux rest
  | Component.curDir :: rest => splitPathAux rest
  | Component.parentDir :: rest => splitPathAux rest

/-- Source `fn split_path` (src/main.rs:309-342): decompose a path into display
segments, falling back to the single sentinel segment `"."` when nothing
results. -/
def split_path (p : List Char) : List (List Char) :=
  if (splitPathAux (components p)).isEmpty then [['.']] else splitPathAux (components p)

/-- Two path strings denote the same path (Rust's `Path` equality compares
component lists). -/
def pathEquiv (p q : List Char) : Prop :=
  components p = components q

instance (p q : List Char) : Decidable (pathEquiv p q) := by
  unfold pathEquiv; infer_instance

/-- Source `enum JumpDirection` (src/main.rs:102-106). -/
inductive JumpDirection where
  | forward
  | backward
deriving DecidableEq, Repr

/-- Source `struct LastJump` (src/main.rs:109-113). -/
structure LastJump where
  char : Char
  direction : JumpDirection
deriving DecidableEq, Repr

/-- The two closures the source ever stores in `InputMode::WaitForNextKey`,
defunctionalized: the Vim `f`/`F` initiator captures the jump direction and
the numeric count accumulated so far (src/main.rs:398-407); the Emacs
`Ctrl-]` initiator captures nothing (src/main.rs:446-453). -/
inductive PendingAction where
  | vimJump (direction : JumpDirection) (savedCount : List Char)
  | emacsJump
deriving DecidableEq, Repr

/-- Source `enum InputMode` (src/main.rs:84-90). -/
inductive InputMode where
  | normal
  | waitKey (action : PendingAction)
deriving DecidableEq, Repr

/-- Source `struct AppState` (src/main.rs:118-129); `OsString` segments are
modelled as `List Char`. -/
structure AppState where
  path_parts : List (List Char)
  current_index : Nat
  count_input : List Char
  last_jump : Option LastJump
  input_mode : InputMode
deriving DecidableEq, Repr

/-- Decimal value of a digit string (each char contributing `toNat - 48`). -/
def digitsVal (l : List Char) : Nat :=
  l.foldl (fun a c => a * 10 + (c.toNat - 48)) 0

/-- Rust `str::parse::<isize>()` on the count buffer: the buffer only ever holds
ASCII digits, so the parse succeeds exactly when the buffer is non-empty,
all digits, and the value fits in a 64-bit `isize`. -/
def parseIsize (l : List Char) : Option Int :=
  if l ≠ [] ∧ l.all Char.isDigit ∧ digitsVal l ≤ 9223372036854775807 then
    some (digitsVal l)
  else none

/-- Rust `str::parse::<usize>()` on the count buffer, likewise with the 64-bit
`usize` bound. -/
def parseUsize (l : List Char) : Option Nat :=
  if l ≠ [] ∧ l.all Char.isDigit ∧ digitsVal l ≤ 18446744073709551615 then
    some (digitsVal l)
  else none

/-- Source `AppState::new` (src/main.rs:135-144): select the last segment. -/
def AppState.new (path_parts : List (List Char)) : AppState :=
  { path_parts := path_parts
    current_index := path_parts.length - 1
    count_input := []
    last_jump := none
    input_mode := InputMode.normal }

/-- Source `AppState::move_by` (src/main.rs:151-157): displacement `step * count`
with `count = count_input.parse().unwrap_or(1)`, clamped to
`[0, len.saturating_sub(1)]`; the count buffer is cleared. -/
def AppState.move_by (st : AppState) (step : Int) : AppState :=
  { st with
    current_index :=
      (min (max ((st.current_index : Int) + step * (parseIsize st.count_input).getD 1) 0)
        ((st.path_parts.length - 1 : Nat) : Int)).toNat
    count_input := [] }

/-- Source `AppState::move_to_start` (src/main.rs:160-163). -/
def AppState.move_to_start (st : AppState) : AppState :=
  { st with current_index := 0, count_input := [] }

/-- Source `AppState::move_to_end` (src/main.rs:166-169). -/
def AppState.move_to_end (st : AppState) : AppState :=
  { st with current_index := st.path_parts.length - 1, count_input := [] }

/-- Source `AppState::move_to_middle` (src/main.rs:172-175). -/
def AppState.move_to_middle (st : AppState) : AppState :=
  { st with current_index := st.path_parts.length / 2, count_input := [] }

/-- The digit-accumulation arm of `handle_vim_keys` (src/main.rs:420-426):
`'0'` with an empty buffer is "move to start", otherwise the digit is
appended.  (The arm is only reached for ASCII digits.) -/
def AppState.push_digit (st : AppState) (c : Char) : AppState :=
  if c = '0' ∧ st.count_input = [] then st.move_to_start
  else { st with count_input := st.count_input ++ [c] }

/-- The search loop of `find_and_select_char_match` (src/main.rs:195-203):
walk the index list, counting matches, and return the index at which the
running match count reaches `count` (if it ever does). -/
def findLoop (pred : Nat → Bool) (count : Nat) : List Nat → Nat → Option Nat
  | [], _ => none
  | i :: rest, fc =>
    if pred i then
      if fc + 1 = count then some i else findLoop pred count rest (fc + 1)
    else findLoop pred count rest fc

/-- The index scan order of `find_and_select_char_match` (src/main.rs:190-193):
forward scans `current_index+1 .. len`, backward scans `(0..current_index)`
reversed. -/
def scanOrder (st : AppState) (direction : JumpDirection) : List Nat :=
  match direction with
  | JumpDirection.forward =>
    List.range' (st.current_index + 1) (st.path_parts.length - (st.current_index + 1))
  | JumpDirection.backward => (List.range st.current_index).reverse

/-- Does segment `i` contain `target_char`?  (`path_parts[i]` is always in
range at every call site, so the `getD` default is never consulted.) -/
def segMatches (st : AppState) (target_char : Char) (i : Nat) : Bool :=
  (st.path_parts.getD i []).contains target_char

/-- Source `AppState::find_and_select_char_match` (src/main.rs:184-204): parse and
clear the count, then select the `count`-th segment in scan order that
contains `target_char`, leaving the index unchanged if there is none. -/
def AppState.find_and_select_char_match (st : AppState) (direction : JumpDirection)
    (target_char : Char) : AppState :=
  match findLoop (segMatches st target_char) ((parseUsize st.count_input).getD 1)
      (scanOrder st direction) 0 with
  | some i => { st with count_input := [], current_index := i }
  | none => { st with count_input := [] }

/-- Source `AppState::jump_to_char` (src/main.rs:211-218): perform the search, then
unconditionally record it in `last_jump`. -/
def AppState.jump_to_char (st : AppState) (direction : JumpDirection)
    (target_char : Char) : AppState :=
  let st' := st.find_and_select_char_match direction target_char
  { st' with last_jump := some { char := target_char, direction := direction } }

/-- The direction flip in `AppState::repeat_jump` (src/main.rs:226-233). -/
def flipDir : JumpDirection → JumpDirection
  | JumpDirection.forward => JumpDirection.backward
  | JumpDirection.backward => JumpDirection.forward

/-- Source `AppState::repeat_jump` (src/main.rs:224-238): no-op without a recorded
jump; otherwise re-run the search with the recorded character and the
(possibly flipped) recorded direction. -/
def AppState.repeat_jump (st : AppState) (reverse : Bool) : AppState :=
  match st.last_jump with
  | none => st
  | some lj =>
    st.find_and_select_char_match (if reverse then flipDir lj.direction else lj.direction)
      lj.char

/-- The scan loop of `select_part_at_column` (src/main.rs:250-257): `pos` is
the running start offset accumulated in a `u16` (hence the `% 65536`), `i`
the index of the next segment, `ni` the current candidate `new_index`. -/
def selectColLoop (column : Nat) : List (List Char) → Nat → Nat → Nat → Nat
  | [], _, _, ni => ni
  | p :: rest, i, pos, ni =>
    selectColLoop column rest (i + 1) ((pos + p.length % 65536) % 65536)
      (if pos ≤ column then i else ni)

/-- Source `AppState::select_part_at_column` (src/main.rs:245-263). -/
def AppState.select_part_at_column (st : AppState) (column : Nat) : AppState :=
  if st.path_parts.isEmpty then st
  else { st with current_index := selectColLoop column st.path_parts 0 0 0 }

/-- Unix `PathBuf::push` for a single (non-empty) segment: an absolute
segment replaces the buffer; otherwise a `'/'` is interposed unless the
buffer is empty or already ends with one. -/
def pathPush (buf p : List Char) : List Char :=
  if p.head? = some '/' then p
  else if buf = [] ∨ buf.getLast? = some '/' then buf ++ p
  else buf ++ '/' :: p

/-- Source `AppState::selected_path` (src/main.rs:266-270): collect the segments up
to and including `current_index` into a `PathBuf`. -/
def AppState.selected_path (st : AppState) : List Char :=
  (st.path_parts.take (st.current_index + 1)).foldl pathPush []

/-- The key codes the program distinguishes; every other `crossterm`
`KeyCode` falls into the catch-all arms and is represented by `otherKey`. -/
inductive KeyCode where
  | char (c : Char)
  | left
  | right
  | home
  | endKey
  | enter
  | escKey
  | otherKey
deriving DecidableEq, Repr

/-- The modifier bits the program tests (`CONTROL` and `ALT`). -/
structure Mods where
  ctrl : Bool
  alt : Bool
deriving DecidableEq, Repr

/-- Crossterm `crossterm::event::KeyEventKind`. -/
inductive KeyEventKind where
  | press
  | release
  | repeatKind
deriving DecidableEq, Repr

/-- Crossterm `crossterm::event::KeyEvent`, restricted to the fields the program
reads. -/
structure KeyEvent where
  code : KeyCode
  modifiers : Mods
  kind : KeyEventKind
deriving DecidableEq, Repr

/-- The mouse event kinds the program distinguishes; all others fall into
the catch-all arm (`otherMouse`). -/
inductive MouseKind where
  | moved
  | downLeft
  | downRight
  | scrollUp
  | scrollDown
  | scrollLeft
  | scrollRight
  | otherMouse
deriving DecidableEq, Repr

/-- Crossterm `crossterm::event::MouseEvent`, restricted to the fields the program
reads (`kind` and `column`; the column is a `u16`). -/
structure MouseEvent where
  kind : MouseKind
  column : Nat
deriving DecidableEq, Repr

/-- Crossterm `crossterm::event::Event`: key, mouse, or anything else (resize, focus,
paste), which the program ignores. -/
inductive Event where
  | key (k : KeyEvent)
  | mouse (m : MouseEvent)
  | otherEvent
deriving DecidableEq, Repr

/-- Source `enum Keymap` (src/main.rs:93-99). -/
inductive Keymap where
  | vim
  | emacs
deriving DecidableEq, Repr

/-- Source `enum EventAction` (src/main.rs:277-284), with one extra outcome:
`interrupt` models `handle_interrupt` (src/main.rs:489-495), which re-raises
`SIGINT` and terminates the process instead of returning. -/
inductive EventAction where
  | cont
  | confirm (p : List Char)
  | quit
  | interrupt
deriving DecidableEq, Repr

/-- Run a stored follow-up action on the next key event
(the closure bodies at src/main.rs:398-407 and src/main.rs:446-453): a
printable character triggers the recorded jump (the Vim closure first
restores the captured count); any other key does nothing. -/
def runPending (a : PendingAction) (key : KeyEvent) (st : AppState) : AppState :=
  match a with
  | PendingAction.vimJump direction savedCount =>
    match key.code with
    | KeyCode.char c =>
      AppState.jump_to_char { st with count_input := savedCount } direction c
    | _ => st
  | PendingAction.emacsJump =>
    match key.code with
    | KeyCode.char c => st.jump_to_char JumpDirection.forward c
    | _ => st

/-- Source `fn handle_vim_keys` (src/main.rs:383-429). -/
def handle_vim_keys (key : KeyEvent) (st : AppState) : AppState :=
  match key.code with
  | KeyCode.char 'f' =>
    { st with
      count_input := []
      input_mode :=
        InputMode.waitKey (PendingAction.vimJump JumpDirection.forward st.count_input) }
  | KeyCode.char 'F' =>
    { st with
      count_input := []
      input_mode :=
        InputMode.waitKey (PendingAction.vimJump JumpDirection.backward st.count_input) }
  | KeyCode.char ';' => st.repeat_jump false
  | KeyCode.char ',' => st.repeat_jump true
  | KeyCode.char 'h' | KeyCode.char 'k' | KeyCode.char 'b' => st.move_by (-1)
  | KeyCode.char 'l' | KeyCode.char 'j' | KeyCode.char 'w' => st.move_by 1
  | KeyCode.char '^' | KeyCode.char 'H' => st.move_to_start
  | KeyCode.char '$' | KeyCode.char 'L' => st.move_to_end
  | KeyCode.char 'M' => st.move_to_middle
  | KeyCode.char c => if c.isDigit then st.push_digit c else st
  | _ => st

/-- Source `fn handle_emacs_keys` (src/main.rs:439-467). -/
def handle_emacs_keys (key : KeyEvent) (st : AppState) : AppState :=
  match key.code with
  | KeyCode.char ']' =>
    if key.modifiers.ctrl then
      { st with input_mode := InputMode.waitKey PendingAction.emacsJump }
    else st
  | KeyCode.char 'b' =>
    if key.modifiers.ctrl then st.move_by (-1)
    else if key.modifiers.alt then st.move_by (-1)
    else st
  | KeyCode.char 'f' =>
    if key.modifiers.ctrl then st.move_by 1
    else if key.modifiers.alt then st.move_by 1
    else st
  | KeyCode.char 'a' => if key.modifiers.ctrl then st.move_to_start else st
  | KeyCode.char 'e' => if key.modifiers.ctrl then st.move_to_end else st
  | _ => st

/-- Source `fn handle_normal_inputmode` (src/main.rs:512-553), `cfg(unix)` build:
run the active keymap handler, then the shared-key layer.  `Ctrl-z` suspends
and resumes with the selection state unchanged; `Ctrl-c` never returns
(modelled by `EventAction.interrupt`). -/
def handle_normal_inputmode (key : KeyEvent) (st : AppState) (keymap : Keymap) :
    EventAction × AppState :=
  let st :=
    match keymap with
    | Keymap.vim => handle_vim_keys key st
    | Keymap.emacs => handle_emacs_keys key st
  match key.code with
  | KeyCode.left => (EventAction.cont, st.move_by (-1))
  | KeyCode.right => (EventAction.cont, st.move_by 1)
  | KeyCode.home => (EventAction.cont, st.move_to_start)
  | KeyCode.endKey => (EventAction.cont, st.move_to_end)
  | KeyCode.enter => (EventAction.confirm st.selected_path, st)
  | KeyCode.char 'q' => (EventAction.quit, st)
  | KeyCode.escKey => (EventAction.quit, st)
  | KeyCode.char 'c' =>
    if key.modifiers.ctrl then (EventAction.interrupt, st) else (EventAction.cont, st)
  | KeyCode.char 'z' =>
    if key.modifiers.ctrl then (EventAction.cont, st) else (EventAction.cont, st)
  | _ => (EventAction.cont, st)

/-- Source `fn handle_key_event` (src/main.rs:577-598): only press events are
interpreted; `mem::replace` resets the input mode to `Normal` before a
pending action (if any) consumes the key. -/
def handle_key_event (key : KeyEvent) (st : AppState) (keymap : Keymap) :
    EventAction × AppState :=
  match key.kind with
  | KeyEventKind.press =>
    match st.input_mode with
    | InputMode.waitKey action =>
      (EventAction.cont, runPending action key { st with input_mode := InputMode.normal })
    | InputMode.normal => handle_normal_inputmode key st keymap
  | _ => (EventAction.cont, st)

/-- Source `fn handle_mouse_event` (src/main.rs:611-633). -/
def handle_mouse_event (mouse : MouseEvent) (st : AppState) :
    EventAction × AppState :=
  match mouse.kind with
  | MouseKind.moved => (EventAction.cont, st.select_part_at_column mouse.column)
  | MouseKind.downLeft => (EventAction.confirm st.selected_path, st)
  | MouseKind.downRight => (EventAction.quit, st)
  | MouseKind.scrollUp | MouseKind.scrollLeft => (EventAction.cont, st.move_by (-1))
  | MouseKind.scrollDown | MouseKind.scrollRight => (EventAction.cont, st.move_by 1)
  | MouseKind.otherMouse => (EventAction.cont, st)

/-- Source `fn handle_event` (src/main.rs:647-655). -/
def handle_event (event : Event) (st : AppState) (keymap : Keymap) :
    EventAction × AppState :=
  match event with
  | Event.key k => handle_key_event k st keymap
  | Event.mouse m => handle_mouse_event m st
  | Event.otherEvent => (EventAction.cont, st)

/-- The SelectionModel operations of the specification, as an operation
alphabet: every state-mutating operation the spec names. -/
inductive Op where
  | moveBy (step : Int)
  | moveToStart
  | moveToEnd
  | moveToMiddle
  | pushDigit (c : Char)
  | findSel (direction : JumpDirection) (c : Char)
  | jumpTo (direction : JumpDirection) (c : Char)
  | repeatJump (reverse : Bool)
  | selectCol (column : Nat)
deriving DecidableEq, Repr

/-- Interpret one operation on the state. -/
def applyOp (o : Op) (st : AppState) : AppState :=
  match o with
  | Op.moveBy step => st.move_by step
  | Op.moveToStart => st.move_to_start
  | Op.moveToEnd => st.move_to_end
  | Op.moveToMiddle => st.move_to_middle
  | Op.pushDigit c => st.push_digit c
  | Op.findSel d c => st.find_and_select_char_match d c
  | Op.jumpTo d c => st.jump_to_char d c
  | Op.repeatJump r => st.repeat_jump r
  | Op.selectCol col => st.select_part_at_column col

/-- A well-formed count buffer: only ASCII digits, and no leading `'0'`
(the digit-accumulation arm of `handle_vim_keys` turns a leading `'0'` into
"move to start" instead of storing it, so every reachable buffer has this
shape). -/
def CountWF (l : List Char) : Prop :=
  (∀ c ∈ l, c.isDigit = true) ∧ l.head? ≠ some '0'

/-- The display start offset of segment `k`: the total character width of
the segments before it. -/
def segStartOffset (parts : List (List Char)) (k : Nat) : Nat :=
  ((parts.take k).map List.length).sum

/-- Well-formed display segment lists (as produced by `split_path`): every
segment is non-empty, only the first may start with `'/'`, and every
segment except the last ends with `'/'`. -/
def SegWF (segs : List (List Char)) : Prop :=
  ∀ l₁ p l₂, segs = l₁ ++ p :: l₂ →
    p ≠ [] ∧ (l₁ ≠ [] → p.head? ≠ some '/') ∧ (l₂ ≠ [] → p.getLast? = some '/')

/-- The worked example of the specification: the initial state over the
segments of `/home/user/project`. -/
def exState : AppState :=
  AppState.new (split_path "/home/user/project".toList)

/-- A good path name: non-empty, free of separators, and not a `.`/`..`
pseudo-component. -/
def GoodName (n : List Char) : Prop :=
  n ≠ [] ∧ '/' ∉ n ∧ n ≠ ['.'] ∧ n ≠ ['.', '.']

/-- Concatenation of names with a single `'/'` between consecutive names. -/
def joinSlash : List (List Char) → List Char
  | [] => []
  | [n] => n
  | n :: m :: tl => n ++ '/' :: joinSlash (m :: tl)

/-- Strengthened well-formedness, satisfied by the display segments that
follow the (possible) root segment: non-empty, not starting with `'/'`, and
ending with `'/'` unless last. -/
def SegWFStrong (segs : List (List Char)) : Prop :=
  ∀ l₁ p l₂, segs = l₁ ++ p :: l₂ →
    p ≠ [] ∧ p.head? ≠ some '/' ∧ (l₂ ≠ [] → p.getLast? = some '/')

/-- The component shapes that can follow the leading `RootDir`/`CurDir` of a
parsed Unix path. -/
def TailComps (L : List Component) : Prop :=
  ∀ c ∈ L, c = Component.curDir ∨ c = Component.parentDir ∨
    ∃ s, c = Component.normal s ∧ s ≠ [] ∧ '/' ∉ s ∧ s ≠ ['.'] ∧ s ≠ ['.', '.']

/-! ### General lemmas about the search and selection loops -/

theorem findLoop_eq_getElem? (pred : Nat → Bool) (count : Nat) :
    ∀ (l : List Nat) (fc : Nat), fc < count →
      findLoop pred count l fc = (l.filter pred)[count - fc - 1]? := by
  intro l
  induction l with
  | nil => intro fc _; simp [findLoop]
  | cons i rest ih =>
    intro fc hfc
    by_cases hp : pred i
    · by_cases he : fc + 1 = count
      · have h0 : count - fc - 1 = 0 := by omega
        simp [findLoop, hp, he, List.filter_cons_of_pos hp, h0]
      · have hlt : fc + 1 < count := by omega
        have hs : count - fc - 1 = (count - (fc + 1) - 1) + 1 := by omega
        rw [List.filter_cons_of_pos hp, hs]
        simp only [findLoop, hp, if_true, he, if_false, List.getElem?_cons_succ]
        exact ih (fc + 1) hlt
    · rw [List.filter_cons_of_neg hp]
      simp only [findLoop, hp, if_false]
      exact ih fc hfc

theorem range'_pairwise_lt (s n : Nat) : (List.range' s n).Pairwise (· < ·) := by
  induction n generalizing s with
  | zero => simp
  | succ n ih =>
    rw [List.range'_succ]
    refine List.Pairwise.cons ?_ (ih (s + 1))
    intro y hy
    rw [List.mem_range'_1] at hy
    omega

theorem findLoop_mem (pred : Nat → Bool) (count : Nat) :
    ∀ (l : List Nat) (fc i : Nat), findLoop pred count l fc = some i → i ∈ l := by
  intro l
  induction l with
  | nil => intro fc i h; simp [findLoop] at h
  | cons j rest ih =>
    intro fc i h
    by_cases hp : pred j
    · by_cases he : fc + 1 = count
      · simp [findLoop, hp, he] at h
        simp [h]
      · simp only [findLoop, hp, if_true, he, if_false] at h
        exact List.mem_cons_of_mem _ (ih _ _ h)
    · simp only [findLoop, hp, if_false] at h
      exact List.mem_cons_of_mem _ (ih _ _ h)

/-! ### Count buffer parsing -/

theorem digitsFoldl_ge_one :
    ∀ (l : List Char) (a : Nat), 1 ≤ a →
      1 ≤ l.foldl (fun a c => a * 10 + (c.toNat - 48)) a := by
  intro l
  induction l with
  | nil => intro a ha; simpa using ha
  | cons c rest ih =>
    intro a ha
    simp only [List.foldl_cons]
    exact ih (a * 10 + (c.toNat - 48)) (by omega)

theorem digit_val_pos (c : Char) (h : c.isDigit = true) (h0 : c ≠ '0') :
    1 ≤ c.toNat - 48 := by
  simp only [Char.isDigit, Bool.and_eq_true, decide_eq_true_eq] at h
  have h48 : c.toNat ≠ 48 := by
    intro he
    apply h0
    have hc := Char.ofNat_toNat c
    rw [he] at hc
    have hz : Char.ofNat 48 = '0' := by decide
    rw [hz] at hc
    exact hc.symm
  have hge : 48 ≤ c.toNat := h.1
  omega

theorem parseIsize_getD_pos (l : List Char) (h : CountWF l) :
    1 ≤ (parseIsize l).getD 1 := by
  cases l with
  | nil => simp [parseIsize]
  | cons c rest =>
    unfold parseIsize
    split
    · next hcond =>
      simp only [Option.getD_some]
      have hc : c.isDigit = true := h.1 c (by simp)
      have hc0 : c ≠ '0' := by
        intro e
        exact h.2 (by simp [e])
      have : 1 ≤ digitsVal (c :: rest) := by
        unfold digitsVal
        simp only [List.foldl_cons]
        exact digitsFoldl_ge_one rest _ (by have := digit_val_pos c hc hc0; omega)
      exact_mod_cast this
    · simp

theorem find_and_select_last_jump (st : AppState) (d : JumpDirection) (c : Char) :
    (st.find_and_select_char_match d c).last_jump = st.last_jump := by
  unfold AppState.find_and_select_char_match
  split <;> rfl

theorem find_and_select_count (st : AppState) (d : JumpDirection) (c : Char) :
    (st.find_and_select_char_match d c).count_input = [] := by
  unfold AppState.find_and_select_char_match
  split <;> rfl

theorem find_and_select_parts (st : AppState) (d : JumpDirection) (c : Char) :
    (st.find_and_select_char_match d c).path_parts = st.path_parts := by
  unfold AppState.find_and_select_char_match
  split <;> rfl

theorem find_and_select_mode (st : AppState) (d : JumpDirection) (c : Char) :
    (st.find_and_select_char_match d c).input_mode = st.input_mode := by
  unfold AppState.find_and_select_char_match
  split <;> rfl

/-! ### Claim C4 -/

/-- C4 is false as stated: `select_at_column` does not clear the pending
count.  Concretely, selecting at column 0 with pending count `"3"` leaves
the count buffer non-empty. -/
theorem c4_select_at_column_counterexample :
    ¬ ((AppState.select_part_at_column
          { path_parts := [['a']], current_index := 0, count_input := ['3'],
            last_jump := none, input_mode := InputMode.normal } 0).count_input = []) := by
  decide

/-- C4 amended: `move_by`, `move_to_start`, `move_to_end`, `move_to_middle`,
`find_and_select`, `jump`, and `repeat_jump` (with non-empty jump memory)
leave the pending count empty, but `select_at_column` leaves the pending
count exactly as it was. -/
theorem c4_count_clearing_amended :
    (∀ (st : AppState) (step : Int), (st.move_by step).count_input = [])
    ∧ (∀ st : AppState, st.move_to_start.count_input = [])
    ∧ (∀ st : AppState, st.move_to_end.count_input = [])
    ∧ (∀ st : AppState, st.move_to_middle.count_input = [])
    ∧ (∀ (st : AppState) (d : JumpDirection) (c : Char),
        (st.find_and_select_char_match d c).count_input = [])
    ∧ (∀ (st : AppState) (d : JumpDirection) (c : Char),
        (st.jump_to_char d c).count_input = [])
    ∧ (∀ (st : AppState) (r : Bool) (lj : LastJump), st.last_jump = some lj →
        (st.repeat_jump r).count_input = [])
    ∧ (∀ (st : AppState) (col : Nat),
        (st.select_part_at_column col).count_input = st.count_input) := by
  refine ⟨fun st step => rfl, fun st => rfl, fun st => rfl, fun st => rfl,
    find_and_select_count, ?_, ?_, ?_⟩
  · intro st d c
    unfold AppState.jump_to_char
    simp [find_and_select_count]
  · intro st r lj h
    unfold AppState.repeat_jump
    rw [h]
    exact find_and_select_count ..
  · intro st col
    unfold AppState.select_part_at_column
    split <;> rfl

theorem c4_count_clearing_amended_witness :
    (AppState.mk [['a'], ['b']] 0 ['2'] (some (LastJump.mk 'b' JumpDirection.forward))
          InputMode.normal).last_jump = some (LastJump.mk 'b' JumpDirection.forward)
    ∧ ((AppState.mk [['a'], ['b']] 0 ['2'] (some (LastJump.mk 'b' JumpDirection.forward))
          InputMode.normal).repeat_jump false).count_input = [] :=
  ⟨rfl, c4_count_clearing_amended.2.2.2.2.2.2.1 _ false _ rfl⟩

/-! ### Claim C5 -/

/-- C5: `find_and_select` scans the indices strictly after `current_index`
in increasing order (forward) or strictly before it in decreasing order
(backward); a segment matches iff it contains the target character; with
`n` = parsed pending count (or 1), the `n`-th match in scan order becomes
the new index, and the index is unchanged when fewer than `n` matches
exist. -/
theorem c5_find_and_select_spec (st : AppState) (d : JumpDirection) (c : Char)
    (hn : 1 ≤ (parseUsize st.count_input).getD 1) :
    (∀ i, i ∈ scanOrder st JumpDirection.forward ↔
        st.current_index < i ∧ i < st.path_parts.length)
    ∧ (scanOrder st JumpDirection.forward).Pairwise (· < ·)
    ∧ (∀ i, i ∈ scanOrder st JumpDirection.backward ↔ i < st.current_index)
    ∧ (scanOrder st JumpDirection.backward).Pairwise (· > ·)
    ∧ (∀ i, segMatches st c i = (st.path_parts.getD i []).contains c)
    ∧ (st.find_and_select_char_match d c).current_index =
        ((((scanOrder st d).filter (segMatches st c))[(parseUsize st.count_input).getD 1 - 1]?).getD
          st.current_index) := by
  refine ⟨?_, ?_, ?_, ?_, fun i => rfl, ?_⟩
  · intro i
    simp only [scanOrder, List.mem_range'_1]
    omega
  · exact range'_pairwise_lt ..
  · intro i
    simp [scanOrder]
  · have h1 : (List.range st.current_index).Pairwise (· < ·) :=
      List.sorted_lt_range st.current_index
    simpa [scanOrder, List.pairwise_reverse] using h1
  · have hloop := findLoop_eq_getElem? (segMatches st c)
      ((parseUsize st.count_input).getD 1) (scanOrder st d) 0 (by omega)
    have hz : (parseUsize st.count_input).getD 1 - 0 - 1 =
        (parseUsize st.count_input).getD 1 - 1 := by omega
    rw [hz] at hloop
    unfold AppState.find_and_select_char_match
    rw [hloop]
    rcases hv : ((scanOrder st d).filter (segMatches st c))[(parseUsize st.count_input).getD
        1 - 1]? with _ | i
    · rfl
    · rfl

theorem c5_find_and_select_spec_witness :
    1 ≤ (parseUsize exState.move_to_start.count_input).getD 1
    ∧ (exState.move_to_start.find_and_select_char_match JumpDirection.forward 'r').current_index =
        ((((scanOrder exState.move_to_start JumpDirection.forward).filter
              (segMatches exState.move_to_start 'r'))[(parseUsize
                exState.move_to_start.count_input).getD 1 - 1]?).getD
          exState.move_to_start.current_index) :=
  ⟨by decide,
    (c5_find_and_select_spec exState.move_to_start JumpDirection.forward 'r'
      (by decide)).2.2.2.2.2⟩

/-! ### Claim C6 -/

/-- C6: `jump_to_char` unconditionally overwrites the jump memory (even when
the search found nothing); `find_and_select` never touches it;
`repeat_jump` is a no-op without jump memory, and otherwise performs the
search with the stored character, the stored direction flipped iff
`reverse`, and the current pending count, without modifying the memory. -/
theorem c6_jump_memory_frame :
    (∀ (st : AppState) (d : JumpDirection) (c : Char),
        (st.jump_to_char d c).last_jump = some { char := c, direction := d })
    ∧ (∀ (st : AppState) (d : JumpDirection) (c : Char),
        (st.find_and_select_char_match d c).last_jump = st.last_jump)
    ∧ (∀ (st : AppState) (r : Bool), st.last_jump = none → st.repeat_jump r = st)
    ∧ (∀ (st : AppState) (r : Bool) (lj : LastJump), st.last_jump = some lj →
        st.repeat_jump r =
          st.find_and_select_char_match (if r then flipDir lj.direction else lj.direction) lj.char
        ∧ (st.repeat_jump r).last_jump = st.last_jump) := by
  refine ⟨fun st d c => rfl, find_and_select_last_jump, ?_, ?_⟩
  · intro st r h
    unfold AppState.repeat_jump
    rw [h]
  · intro st r lj h
    constructor
    · unfold AppState.repeat_jump
      rw [h]
    · unfold AppState.repeat_jump
      rw [h, find_and_select_last_jump, h]

theorem c6_jump_memory_frame_witness :
    ({ path_parts := [['a']], current_index := 0, count_input := [],
       last_jump := none, input_mode := InputMode.normal } : AppState).last_jump = none
    ∧ ({ path_parts := [['a']], current_index := 0, count_input := [],
         last_jump := none, input_mode := InputMode.normal } : AppState).repeat_jump true =
        { path_parts := [['a']], current_index := 0, count_input := [],
          last_jump := none, input_mode := InputMode.normal } :=
  ⟨rfl, c6_jump_memory_frame.2.2.1 _ true rfl⟩

/-! ### Claim C7 -/

/-- C7: `move_by(step)` sets the index to
`clamp(current_index + step * max(1, parsed count or 1), 0, len - 1)` and
clears the count; pushing `"1"`, `"2"` then one left step moves left by 12
(clamped at 0) with the count cleared, and from index 0 with prefix `"3"`
one right step lands on index 3 when there are 4 segments. -/
theorem c7_move_by_spec (st : AppState) (step : Int) (h1 : CountWF st.count_input)
    (h2 : st.path_parts ≠ []) :
    ((st.move_by step).current_index =
        (min (max ((st.current_index : Int) +
              step * max 1 ((parseIsize st.count_input).getD 1)) 0)
          ((st.path_parts.length : Int) - 1)).toNat
      ∧ (st.move_by step).count_input = [])
    ∧ ((((exState.push_digit '1').push_digit '2').move_by (-1)).current_index = 0
      ∧ (((exState.push_digit '1').push_digit '2').move_by (-1)).count_input = [])
    ∧ ((exState.move_to_start.push_digit '3').move_by 1).current_index = 3 := by
  refine ⟨⟨?_, rfl⟩, ⟨by decide, by decide⟩, by decide⟩
  have hpos := parseIsize_getD_pos st.count_input h1
  have hmax : max 1 ((parseIsize st.count_input).getD 1) =
      (parseIsize st.count_input).getD 1 := max_eq_right hpos
  have hlen : 1 ≤ st.path_parts.length := by
    cases hp : st.path_parts with
    | nil => exact absurd hp h2
    | cons a l => simp
  have hcast : ((st.path_parts.length - 1 : Nat) : Int) = (st.path_parts.length : Int) - 1 := by
    omega
  rw [hmax]
  simp only [AppState.move_by]
  rw [hcast]

theorem c7_move_by_spec_witness :
    CountWF (AppState.mk [['a'], ['b'], ['c'], ['d']] 3 ['1', '2'] none
        InputMode.normal).count_input
    ∧ (AppState.mk [['a'], ['b'], ['c'], ['d']] 3 ['1', '2'] none
        InputMode.normal).path_parts ≠ []
    ∧ ((AppState.mk [['a'], ['b'], ['c'], ['d']] 3 ['1', '2'] none
          InputMode.normal).move_by (-1)).current_index = 0 :=
  ⟨by constructor <;> decide, by decide,
    ((c7_move_by_spec (AppState.mk [['a'], ['b'], ['c'], ['d']] 3 ['1', '2'] none
        InputMode.normal) (-1) ⟨by decide, by decide⟩ (by decide)).1.1).trans (by decide)⟩

/-! ### Shared facts about the input-mode machine -/

theorem select_part_at_column_mode (st : AppState) (col : Nat) :
    (st.select_part_at_column col).input_mode = st.input_mode := by
  unfold AppState.select_part_at_column
  split <;> rfl

theorem handle_key_event_wait (key : KeyEvent) (st : AppState) (a : PendingAction)
    (km : Keymap) (hk : key.kind = KeyEventKind.press)
    (hm : st.input_mode = InputMode.waitKey a) :
    handle_key_event key st km =
      (EventAction.cont, runPending a key { st with input_mode := InputMode.normal }) := by
  obtain ⟨code, mods, kind⟩ := key
  simp only at hk
  subst hk
  simp [handle_key_event, hm]

theorem runPending_nonchar (a : PendingAction) (key : KeyEvent) (st : AppState)
    (h : ∀ c, key.code ≠ KeyCode.char c) : runPending a key st = st := by
  rcases hc : key.code with c | _ | _ | _ | _ | _ | _ | _
  · exact absurd hc (h c)
  all_goals cases a <;> simp [runPending, hc]

theorem handle_mouse_event_mode (m : MouseEvent) (st : AppState) :
    (handle_mouse_event m st).2.input_mode = st.input_mode := by
  rcases hk : m.kind with _ | _ | _ | _ | _ | _ | _ | _ <;>
    simp [handle_mouse_event, hk, select_part_at_column_mode, AppState.move_by]

theorem handle_key_event_nonpress (key : KeyEvent) (st : AppState) (km : Keymap)
    (hk : key.kind ≠ KeyEventKind.press) :
    handle_key_event key st km = (EventAction.cont, st) := by
  rcases hkk : key.kind with _ | _ | _
  · exact absurd hkk hk
  · obtain ⟨code, mods, kind⟩ := key
    simp only at hkk
    subst hkk
    rfl
  · obtain ⟨code, mods, kind⟩ := key
    simp only at hkk
    subst hkk
    rfl

/-! ### Claim C2 -/

/-- C2 is false as stated: a mouse event arriving while the machine is in
`AwaitingFollowupKey` does not transition it back to `Idle` —
`handle_mouse_event` never touches the input mode.  Concretely, a pointer
move at column 0 leaves the machine waiting. -/
theorem c2_any_event_counterexample :
    (handle_event (Event.mouse (MouseEvent.mk MouseKind.moved 0))
        (AppState.mk [['/']] 0 [] none (InputMode.waitKey PendingAction.emacsJump))
        Keymap.vim).2.input_mode ≠ InputMode.normal := by
  decide

/-- C2 amended: while in `AwaitingFollowupKey`, the very next key event of
kind Press transitions the machine back to `Idle`, invoking the captured
action with that key first, and an action fed a non-printable key (e.g.
Escape) performs no further mutation; but mouse events leave the input mode
unchanged (the pending action stays armed), and non-press key events leave
the whole state unchanged. -/
theorem c2_followup_reset_amended :
    (∀ (key : KeyEvent) (st : AppState) (a : PendingAction) (km : Keymap),
        key.kind = KeyEventKind.press → st.input_mode = InputMode.waitKey a →
          handle_key_event key st km =
            (EventAction.cont, runPending a key { st with input_mode := InputMode.normal }))
    ∧ (∀ (a : PendingAction) (key : KeyEvent) (st : AppState),
        (∀ c, key.code ≠ KeyCode.char c) → runPending a key st = st)
    ∧ (∀ (m : MouseEvent) (st : AppState),
        (handle_mouse_event m st).2.input_mode = st.input_mode)
    ∧ (∀ (key : KeyEvent) (st : AppState) (km : Keymap),
        key.kind ≠ KeyEventKind.press → handle_key_event key st km = (EventAction.cont, st)) :=
  ⟨handle_key_event_wait, runPending_nonchar, handle_mouse_event_mode, handle_key_event_nonpress⟩

theorem c2_followup_reset_amended_witness :
    (KeyEvent.mk KeyCode.escKey (Mods.mk false false) KeyEventKind.press).kind =
        KeyEventKind.press
    ∧ (AppState.mk [['/']] 0 [] none
          (InputMode.waitKey PendingAction.emacsJump)).input_mode =
        InputMode.waitKey PendingAction.emacsJump
    ∧ handle_key_event (KeyEvent.mk KeyCode.escKey (Mods.mk false false) KeyEventKind.press)
        (AppState.mk [['/']] 0 [] none (InputMode.waitKey PendingAction.emacsJump)) Keymap.vim =
        (EventAction.cont,
          runPending PendingAction.emacsJump
            (KeyEvent.mk KeyCode.escKey (Mods.mk false false) KeyEventKind.press)
            (AppState.mk [['/']] 0 [] none InputMode.normal)) :=
  ⟨rfl, rfl,
    c2_followup_reset_amended.1
      (KeyEvent.mk KeyCode.escKey (Mods.mk false false) KeyEventKind.press)
      (AppState.mk [['/']] 0 [] none (InputMode.waitKey PendingAction.emacsJump))
      PendingAction.emacsJump Keymap.vim rfl rfl⟩

/-! ### Claim C10 -/

/-- C10: while in `AwaitingFollowupKey`, the next key press is entirely
consumed by the pending action and `handle_key_event` returns `Continue`
whatever the key is — Enter produces no `Confirm`, `q`/Escape produce no
`Quit` — and a printable `'q'` instead executes the pending character jump
with target `'q'`. -/
theorem c10_followup_consumes_key (key : KeyEvent) (st : AppState) (a : PendingAction)
    (km : Keymap) (hk : key.kind = KeyEventKind.press)
    (hm : st.input_mode = InputMode.waitKey a) :
    (handle_key_event key st km).1 = EventAction.cont
    ∧ (handle_key_event key st km).2 = runPending a key { st with input_mode := InputMode.normal }
    ∧ (∀ (d : JumpDirection) (saved : List Char),
        a = PendingAction.vimJump d saved → key.code = KeyCode.char 'q' →
          (handle_key_event key st km).2 =
            AppState.jump_to_char
              { st with input_mode := InputMode.normal, count_input := saved } d 'q') := by
  have h := handle_key_event_wait key st a km hk hm
  refine ⟨by rw [h], by rw [h], ?_⟩
  intro d saved ha hq
  rw [h, ha]
  simp [runPending, hq]

theorem c10_followup_consumes_key_witness :
    (KeyEvent.mk (KeyCode.char 'q') (Mods.mk false false) KeyEventKind.press).kind =
        KeyEventKind.press
    ∧ (AppState.mk [['/'], ['a']] 0 [] none
          (InputMode.waitKey (PendingAction.vimJump JumpDirection.forward []))).input_mode =
        InputMode.waitKey (PendingAction.vimJump JumpDirection.forward [])
    ∧ (handle_key_event (KeyEvent.mk (KeyCode.char 'q') (Mods.mk false false) KeyEventKind.press)
        (AppState.mk [['/'], ['a']] 0 [] none
          (InputMode.waitKey (PendingAction.vimJump JumpDirection.forward [])))
        Keymap.vim).1 = EventAction.cont :=
  ⟨rfl, rfl,
    (c10_followup_consumes_key
      (KeyEvent.mk (KeyCode.char 'q') (Mods.mk false false) KeyEventKind.press)
      (AppState.mk [['/'], ['a']] 0 [] none
        (InputMode.waitKey (PendingAction.vimJump JumpDirection.forward [])))
      (PendingAction.vimJump JumpDirection.forward []) Keymap.vim rfl rfl).1⟩

/-! ### Claim C1 -/

theorem split_path_ne_nil (p : List Char) : split_path p ≠ [] := by
  unfold split_path
  split
  · simp
  · next h => simpa using h

theorem scanOrder_mem_lt (st : AppState) (d : JumpDirection) (i : Nat)
    (hci : st.current_index < st.path_parts.length) (hmem : i ∈ scanOrder st d) :
    i < st.path_parts.length := by
  cases d with
  | forward =>
    rw [scanOrder, List.mem_range'_1] at hmem
    omega
  | backward =>
    simp only [scanOrder, List.mem_reverse, List.mem_range] at hmem
    omega

theorem find_and_select_index_lt (st : AppState) (d : JumpDirection) (c : Char)
    (hci : st.current_index < st.path_parts.length) :
    (st.find_and_select_char_match d c).current_index < st.path_parts.length := by
  unfold AppState.find_and_select_char_match
  split
  · next i heq =>
    exact scanOrder_mem_lt st d i hci (findLoop_mem _ _ _ _ _ heq)
  · exact hci

theorem selectColLoop_lt (col : Nat) :
    ∀ (parts : List (List Char)) (i pos ni B : Nat), ni < B → i + parts.length ≤ B →
      selectColLoop col parts i pos ni < B := by
  intro parts
  induction parts with
  | nil => intro i pos ni B h1 _; simpa [selectColLoop] using h1
  | cons p rest ih =>
    intro i pos ni B h1 h2
    simp only [selectColLoop]
    apply ih
    · split <;> [skip; exact h1]
      simp only [List.length_cons] at h2
      omega
    · simp only [List.length_cons] at h2
      omega

theorem applyOp_path_parts (o : Op) (st : AppState) :
    (applyOp o st).path_parts = st.path_parts := by
  cases o with
  | moveBy step => rfl
  | moveToStart => rfl
  | moveToEnd => rfl
  | moveToMiddle => rfl
  | pushDigit c =>
    simp only [applyOp, AppState.push_digit]
    split <;> rfl
  | findSel d c => exact find_and_select_parts ..
  | jumpTo d c =>
    simp only [applyOp, AppState.jump_to_char]
    exact find_and_select_parts ..
  | repeatJump r =>
    simp only [applyOp, AppState.repeat_jump]
    split
    · rfl
    · exact find_and_select_parts ..
  | selectCol col =>
    simp only [applyOp, AppState.select_part_at_column]
    split <;> rfl

theorem applyOp_index_lt (o : Op) (st : AppState) (hne : st.path_parts ≠ [])
    (hci : st.current_index < st.path_parts.length) :
    (applyOp o st).current_index < st.path_parts.length := by
  have hlen : 1 ≤ st.path_parts.length := List.length_pos.mpr hne
  cases o with
  | moveBy step =>
    simp only [applyOp, AppState.move_by]
    have h0 : (0 : Int) ≤ min (max ((st.current_index : Int) +
        step * (parseIsize st.count_input).getD 1) 0)
        ((st.path_parts.length - 1 : Nat) : Int) := by
      apply le_min (le_max_right _ _)
      omega
    have h1 : min (max ((st.current_index : Int) +
        step * (parseIsize st.count_input).getD 1) 0)
        ((st.path_parts.length - 1 : Nat) : Int) ≤ ((st.path_parts.length - 1 : Nat) : Int) :=
      min_le_right _ _
    omega
  | moveToStart => simpa [applyOp, AppState.move_to_start] using hlen
  | moveToEnd =>
    simp only [applyOp, AppState.move_to_end]
    omega
  | moveToMiddle =>
    simp only [applyOp, AppState.move_to_middle]
    omega
  | pushDigit c =>
    simp only [applyOp, AppState.push_digit]
    split
    · simpa [AppState.move_to_start] using hlen
    · exact hci
  | findSel d c => exact find_and_select_index_lt st d c hci
  | jumpTo d c =>
    simp only [applyOp, AppState.jump_to_char]
    exact find_and_select_index_lt st d c hci
  | repeatJump r =>
    simp only [applyOp, AppState.repeat_jump]
    split
    · exact hci
    · exact find_and_select_index_lt st _ _ hci
  | selectCol col =>
    simp only [applyOp, AppState.select_part_at_column]
    split
    · exact hci
    · exact selectColLoop_lt col st.path_parts 0 0 0 st.path_parts.length hlen (by omega)

theorem foldl_applyOp_invariant (ops : List Op) :
    ∀ st : AppState, st.path_parts ≠ [] → st.current_index < st.path_parts.length →
      (ops.foldl (fun s o => applyOp o s) st).path_parts = st.path_parts
      ∧ (ops.foldl (fun s o => applyOp o s) st).current_index < st.path_parts.length := by
  induction ops with
  | nil => intro st _ hci; exact ⟨rfl, hci⟩
  | cons o rest ih =>
    intro st hne hci
    simp only [List.foldl_cons]
    have hp := applyOp_path_parts o st
    have hlt := applyOp_index_lt o st hne hci
    have hne' : (applyOp o st).path_parts ≠ [] := by rw [hp]; exact hne
    have hci' : (applyOp o st).current_index < (applyOp o st).path_parts.length := by
      rw [hp]; exact hlt
    obtain ⟨h1, h2⟩ := ih (applyOp o st) hne' hci'
    rw [hp] at h1 h2
    exact ⟨h1, h2⟩

theorem segStartOffset_succ_cons (p : List Char) (rest : List (List Char)) (j : Nat) :
    segStartOffset (p :: rest) (j + 1) = p.length + segStartOffset rest j := by
  simp [segStartOffset, List.take_succ_cons]

theorem segStartOffset_mono :
    ∀ (l : List (List Char)) (j k : Nat), j ≤ k → segStartOffset l j ≤ segStartOffset l k := by
  intro l
  induction l with
  | nil => intro j k _; simp [segStartOffset]
  | cons p rest ih =>
    intro j k hjk
    cases k with
    | zero =>
      have : j = 0 := by omega
      simp [this]
    | succ k =>
      cases j with
      | zero => exact Nat.zero_le _
      | succ j =>
        rw [segStartOffset_succ_cons, segStartOffset_succ_cons]
        have := ih j k (by omega)
        omega

theorem selectColLoop_spec (col : Nat) :
    ∀ (suffix : List (List Char)) (i pos ni : Nat),
      pos + (suffix.map List.length).sum < 65536 →
      (∀ j, j < suffix.length → pos + segStartOffset suffix j ≤ col →
          i + j ≤ selectColLoop col suffix i pos ni)
        ∧ (selectColLoop col suffix i pos ni = ni
            ∨ ∃ j, j < suffix.length ∧ selectColLoop col suffix i pos ni = i + j
                ∧ pos + segStartOffset suffix j ≤ col) := by
  intro suffix
  induction suffix with
  | nil =>
    intro i pos ni _
    constructor
    · intro j hj
      simp at hj
    · left
      rfl
  | cons p rest ih =>
    intro i pos ni hnw
    have hplen : p.length % 65536 = p.length := by
      apply Nat.mod_eq_of_lt
      simp only [List.map_cons, List.sum_cons] at hnw
      omega
    have hpos : (pos + p.length % 65536) % 65536 = pos + p.length := by
      rw [hplen]
      apply Nat.mod_eq_of_lt
      simp only [List.map_cons, List.sum_cons] at hnw
      omega
    have hstep : selectColLoop col (p :: rest) i pos ni =
        selectColLoop col rest (i + 1) (pos + p.length) (if pos ≤ col then i else ni) := by
      simp only [selectColLoop, hpos]
    have hnw' : (pos + p.length) + (rest.map List.length).sum < 65536 := by
      simp only [List.map_cons, List.sum_cons] at hnw
      omega
    obtain ⟨ihA, ihB⟩ := ih (i + 1) (pos + p.length) (if pos ≤ col then i else ni) hnw'
    rw [hstep]
    constructor
    · intro j hj hoff
      cases j with
      | zero =>
        have hpc : pos ≤ col := by simpa [segStartOffset] using hoff
        rcases ihB with hB | ⟨j', _, hB, _⟩
        · rw [hB, if_pos hpc]
          omega
        · rw [hB]
          omega
      | succ j =>
        rw [segStartOffset_succ_cons] at hoff
        have := ihA j (by simpa using hj) (by omega)
        omega
    · rcases ihB with hB | ⟨j', hj', hB, hoff'⟩
      · by_cases hpc : pos ≤ col
        · right
          refine ⟨0, by simp, ?_, by simpa [segStartOffset] using hpc⟩
          rw [hB, if_pos hpc]
          omega
        · left
          rw [hB, if_neg hpc]
      · right
        refine ⟨j' + 1, by simpa using hj', ?_, ?_⟩
        · rw [hB]
          omega
        · rw [segStartOffset_succ_cons]
          omega

/-! ### Claim C9 -/

/-- C9: with each segment's width its character count and start offsets
accumulated left to right (no `u16` wrap: the row is narrower than 65536
cells), `select_at_column` selects the last segment whose start offset is
`≤ column`; a column at or beyond the end of the row selects the last
segment, a column before any text selects the first; column 3 over the
example widths 1, 5, 5, 7 selects index 1. -/
theorem c9_select_at_column_spec (st : AppState) (col : Nat) (_hcol : col < 65536)
    (hsum : (st.path_parts.map List.length).sum < 65536) (hne : st.path_parts ≠ []) :
    ((st.select_part_at_column col).current_index < st.path_parts.length
      ∧ segStartOffset st.path_parts (st.select_part_at_column col).current_index ≤ col
      ∧ (∀ j, j < st.path_parts.length → segStartOffset st.path_parts j ≤ col →
          j ≤ (st.select_part_at_column col).current_index)
      ∧ (segStartOffset st.path_parts st.path_parts.length ≤ col →
          (st.select_part_at_column col).current_index = st.path_parts.length - 1)
      ∧ (col < segStartOffset st.path_parts 1 →
          (st.select_part_at_column col).current_index = 0))
    ∧ (exState.select_part_at_column 3).current_index = 1 := by
  refine ⟨?_, by decide⟩
  have hlen : 1 ≤ st.path_parts.length := List.length_pos.mpr hne
  have hres : (st.select_part_at_column col).current_index =
      selectColLoop col st.path_parts 0 0 0 := by
    unfold AppState.select_part_at_column
    rw [if_neg]
    simp [List.isEmpty_iff, hne]
  obtain ⟨hA, hB⟩ := selectColLoop_spec col st.path_parts 0 0 0 (by simpa using hsum)
  simp only [Nat.zero_add] at hA hB
  rw [hres]
  have hlt : selectColLoop col st.path_parts 0 0 0 < st.path_parts.length := by
    rcases hB with hB | ⟨j, hj, hB, _⟩
    · omega
    · omega
  have hoffres : segStartOffset st.path_parts (selectColLoop col st.path_parts 0 0 0) ≤ col := by
    rcases hB with hB | ⟨j, hj, hB, hoff⟩
    · rw [hB]
      simp [segStartOffset]
    · rw [hB]
      exact hoff
  refine ⟨hlt, hoffres, fun j hj hoff => hA j hj hoff, ?_, ?_⟩
  · intro htotal
    have h1 : st.path_parts.length - 1 ≤ selectColLoop col st.path_parts 0 0 0 := by
      apply hA _ (by omega)
      calc segStartOffset st.path_parts (st.path_parts.length - 1) ≤
            segStartOffset st.path_parts st.path_parts.length :=
              segStartOffset_mono _ _ _ (by omega)
        _ ≤ col := htotal
    omega
  · intro hfirst
    by_contra hne0
    have h1 : 1 ≤ selectColLoop col st.path_parts 0 0 0 := by omega
    have h2 : segStartOffset st.path_parts 1 ≤
        segStartOffset st.path_parts (selectColLoop col st.path_parts 0 0 0) :=
      segStartOffset_mono _ _ _ h1
    omega

/-! ### Facts about the Unix path component parser -/

theorem splitAux_noslash : ∀ (l acc : List Char), '/' ∉ acc →
    ∀ ch ∈ splitAux l acc, '/' ∉ ch := by
  intro l
  induction l with
  | nil =>
    intro acc hacc ch hch
    simp only [splitAux, List.mem_singleton] at hch
    subst hch
    simpa using hacc
  | cons c rest ih =>
    intro acc hacc ch hch
    by_cases hc : c = '/'
    · subst hc
      simp only [splitAux, if_true, List.mem_cons] at hch
      rcases hch with hch | hch
      · subst hch
        simpa using hacc
      · exact ih [] (by simp) ch hch
    · simp only [splitAux, if_neg hc] at hch
      refine ih (c :: acc) ?_ ch hch
      intro hmem
      rcases List.mem_cons.mp hmem with he | he
      · exact hc he.symm
      · exact hacc he

theorem splitAux_append_noslash : ∀ (n l acc : List Char), '/' ∉ n →
    splitAux (n ++ l) acc = splitAux l (n.reverse ++ acc) := by
  intro n
  induction n with
  | nil => intro l acc _; simp
  | cons c n' ih =>
    intro l acc hn
    have hc : ¬ c = '/' := by
      intro h
      exact hn (by simp [h])
    simp only [List.cons_append, splitAux, if_neg hc, List.append_eq]
    rw [ih l (c :: acc) (fun h => hn (List.mem_cons_of_mem _ h))]
    simp

theorem splitAux_slash (l acc : List Char) :
    splitAux ('/' :: l) acc = acc.reverse :: splitAux l [] := by
  simp [splitAux]

theorem pathNames_good (p : List Char) : ∀ n ∈ pathNames p, n ≠ [] ∧ '/' ∉ n := by
  intro n hn
  unfold pathNames at hn
  rw [List.mem_filter] at hn
  obtain ⟨hmem, hne⟩ := hn
  refine ⟨?_, splitAux_noslash p [] (by simp) n hmem⟩
  simpa [List.isEmpty_iff] using hne

theorem mem_convNames (ns : List (List Char)) (c : Component) (h : c ∈ convNames ns) :
    c = Component.parentDir ∨
      ∃ s, c = Component.normal s ∧ s ∈ ns ∧ s ≠ ['.'] ∧ s ≠ ['.', '.'] := by
  unfold convNames at h
  rw [List.mem_filterMap] at h
  obtain ⟨s, hs, hmap⟩ := h
  unfold nameToComp at hmap
  by_cases h1 : s = ['.']
  · rw [if_pos h1] at hmap
    exact absurd hmap (by simp)
  · by_cases h2 : s = ['.', '.']
    · rw [if_neg h1, if_pos h2] at hmap
      left
      exact (Option.some_inj.mp hmap).symm
    · rw [if_neg h1, if_neg h2] at hmap
      right
      exact ⟨s, (Option.some_inj.mp hmap).symm, hs, h1, h2⟩

theorem convNames_map_normal : ∀ ns : List (List Char),
    (∀ n ∈ ns, n ≠ ['.'] ∧ n ≠ ['.', '.']) → convNames ns = ns.map Component.normal := by
  intro ns
  induction ns with
  | nil => intro _; rfl
  | cons n tl ih =>
    intro h
    obtain ⟨h1, h2⟩ := h n (List.mem_cons_self ..)
    have hmap : nameToComp n = some (Component.normal n) := by
      unfold nameToComp
      rw [if_neg h1, if_neg h2]
    simp only [convNames, List.map_cons] at ih ⊢
    rw [List.filterMap_cons_some hmap, ih (fun m hm => h m (List.mem_cons_of_mem _ hm))]

theorem components_shape (p : List Char) :
    components p = [] ∨
      ∃ ns, (∀ n ∈ ns, n ≠ [] ∧ '/' ∉ n) ∧
        (components p = Component.rootDir :: convNames ns
          ∨ components p = Component.curDir :: convNames ns
          ∨ components p = convNames ns) := by
  unfold components
  by_cases habs : p.head? = some '/'
  · right
    exact ⟨pathNames p, pathNames_good p, Or.inl (by rw [if_pos habs])⟩
  · rw [if_neg habs]
    rcases hpn : pathNames p with _ | ⟨n, rest⟩
    · left
      rfl
    · right
      by_cases hdot : n = ['.']
      · refine ⟨rest, ?_, Or.inr (Or.inl (by simp [hdot]))⟩
        intro m hm
        exact pathNames_good p m (by rw [hpn]; exact List.mem_cons_of_mem _ hm)
      · refine ⟨n :: rest, ?_, Or.inr (Or.inr (by simp [hdot]))⟩
        intro m hm
        exact pathNames_good p m (by rw [hpn]; exact hm)

theorem comps_mem (p : List Char) (c : Component) (h : c ∈ components p) :
    c = Component.rootDir ∨ c = Component.curDir ∨ c = Component.parentDir ∨
      ∃ s, c = Component.normal s ∧ s ≠ [] ∧ '/' ∉ s ∧ s ≠ ['.'] ∧ s ≠ ['.', '.'] := by
  rcases components_shape p with he | ⟨ns, hns, hcase⟩
  · rw [he] at h
    exact absurd h (by simp)
  · have htail : ∀ d ∈ convNames ns, d = Component.parentDir ∨
        ∃ s, d = Component.normal s ∧ s ≠ [] ∧ '/' ∉ s ∧ s ≠ ['.'] ∧ s ≠ ['.', '.'] := by
      intro d hd
      rcases mem_convNames ns d hd with hpar | ⟨s, hd', hs, h1, h2⟩
      · exact Or.inl hpar
      · obtain ⟨hs1, hs2⟩ := hns s hs
        exact Or.inr ⟨s, hd', hs1, hs2, h1, h2⟩
    rcases hcase with hc | hc | hc <;> rw [hc] at h
    · rcases List.mem_cons.mp h with rfl | h
      · exact Or.inl rfl
      · rcases htail c h with h' | h'
        · exact Or.inr (Or.inr (Or.inl h'))
        · exact Or.inr (Or.inr (Or.inr h'))
    · rcases List.mem_cons.mp h with rfl | h
      · exact Or.inr (Or.inl rfl)
      · rcases htail c h with h' | h'
        · exact Or.inr (Or.inr (Or.inl h'))
        · exact Or.inr (Or.inr (Or.inr h'))
    · rcases htail c h with h' | h'
      · exact Or.inr (Or.inr (Or.inl h'))
      · exact Or.inr (Or.inr (Or.inr h'))

theorem head?_append_left (s t : List Char) (h : s ≠ []) : (s ++ t).head? = s.head? := by
  cases s with
  | nil => exact absurd rfl h
  | cons c tl => rfl

theorem head?_ne_slash (s : List Char) (h1 : s ≠ []) (h2 : '/' ∉ s) :
    s.head? ≠ some '/' := by
  cases s with
  | nil => exact absurd rfl h1
  | cons c tl =>
    intro he
    rw [List.head?_cons, Option.some_inj] at he
    exact h2 (he ▸ List.mem_cons_self c tl)

theorem tailComps_convNames (ns : List (List Char))
    (hns : ∀ n ∈ ns, n ≠ [] ∧ '/' ∉ n) : TailComps (convNames ns) := by
  intro c hc
  rcases mem_convNames ns c hc with h | ⟨s, rfl, hs, h1, h2⟩
  · exact Or.inr (Or.inl h)
  · obtain ⟨hs1, hs2⟩ := hns s hs
    exact Or.inr (Or.inr ⟨s, rfl, hs1, hs2, h1, h2⟩)

theorem segWFStrong_nil : SegWFStrong [] := by
  intro l₁ q l₂ he
  exact absurd he (by simp)

theorem segWFStrong_cons (q : List Char) (segs : List (List Char)) (h1 : q ≠ [])
    (h2 : q.head? ≠ some '/') (h3 : segs ≠ [] → q.getLast? = some '/')
    (h4 : SegWFStrong segs) : SegWFStrong (q :: segs) := by
  intro l₁ r l₂ heq
  cases l₁ with
  | nil =>
    simp only [List.nil_append, List.cons.injEq] at heq
    obtain ⟨hqr, hsegs⟩ := heq
    subst hqr
    subst hsegs
    exact ⟨h1, h2, h3⟩
  | cons a t =>
    simp only [List.cons_append, List.cons.injEq] at heq
    exact h4 t r l₂ heq.2

theorem segWFStrong_weaken (segs : List (List Char)) (h : SegWFStrong segs) :
    SegWF segs := by
  intro l₁ q l₂ he
  obtain ⟨p1, p2, p3⟩ := h l₁ q l₂ he
  exact ⟨p1, fun _ => p2, p3⟩

theorem segWF_cons (q : List Char) (segs : List (List Char)) (h1 : q ≠ [])
    (h3 : segs ≠ [] → q.getLast? = some '/') (h4 : SegWFStrong segs) :
    SegWF (q :: segs) := by
  intro l₁ r l₂ heq
  cases l₁ with
  | nil =>
    simp only [List.nil_append, List.cons.injEq] at heq
    obtain ⟨hqr, hsegs⟩ := heq
    subst hqr
    subst hsegs
    exact ⟨h1, fun hf => absurd rfl hf, h3⟩
  | cons a t =>
    simp only [List.cons_append, List.cons.injEq] at heq
    obtain ⟨p1, p2, p3⟩ := h4 t r l₂ heq.2
    exact ⟨p1, fun _ => p2, p3⟩

theorem splitPathAux_strong : ∀ L : List Component, TailComps L →
    SegWFStrong (splitPathAux L) := by
  intro L
  induction L with
  | nil =>
    intro _
    intro l₁ q l₂ he
    exact absurd he (by simp [splitPathAux])
  | cons c rest ih =>
    intro h
    have hrest : TailComps rest := fun x hx => h x (List.mem_cons_of_mem _ hx)
    rcases h c (List.mem_cons_self ..) with rfl | rfl | ⟨s, rfl, hs1, hs2, hs3, hs4⟩
    · simpa [splitPathAux] using ih hrest
    · simpa [splitPathAux] using ih hrest
    · by_cases hre : rest.isEmpty
      · have hrnil : rest = [] := by simpa [List.isEmpty_iff] using hre
        subst hrnil
        have heq : splitPathAux [Component.normal s] = [s] := by simp [splitPathAux]
        rw [heq]
        exact segWFStrong_cons s [] hs1 (head?_ne_slash s hs1 hs2)
          (fun hf => absurd rfl hf) segWFStrong_nil
      · have heq : splitPathAux (Component.normal s :: rest) =
            (s ++ ['/']) :: splitPathAux rest := by
          simp [splitPathAux, hre]
        rw [heq]
        refine segWFStrong_cons _ _ (by simp) ?_ (fun _ => ?_) (ih hrest)
        · rw [head?_append_left s ['/'] hs1]
          exact head?_ne_slash s hs1 hs2
        · exact List.getLast?_concat _

theorem split_path_SegWF (p : List Char) : SegWF (split_path p) := by
  unfold split_path
  split
  · intro l₁ q l₂ he
    have hl : l₁ = [] := by
      cases l₁ with
      | nil => rfl
      | cons a t => simp at he
    subst hl
    simp only [List.nil_append, List.cons.injEq] at he
    obtain ⟨hq, hl₂⟩ := he
    refine ⟨by rw [← hq]; simp, fun hf => absurd rfl hf, fun hf => absurd hl₂.symm hf⟩
  · rcases components_shape p with he | ⟨ns, hns, hcase⟩
    · rw [he]
      intro l₁ q l₂ heq
      exact absurd heq (by simp [splitPathAux])
    · have hstrong := splitPathAux_strong (convNames ns) (tailComps_convNames ns hns)
      rcases hcase with hc | hc | hc <;> rw [hc]
      · rw [show splitPathAux (Component.rootDir :: convNames ns) =
            ['/'] :: splitPathAux (convNames ns) from by simp [splitPathAux]]
        exact segWF_cons _ _ (by simp) (fun _ => rfl) hstrong
      · rw [show splitPathAux (Component.curDir :: convNames ns) =
            splitPathAux (convNames ns) from by simp [splitPathAux]]
        exact segWFStrong_weaken _ hstrong
      · exact segWFStrong_weaken _ hstrong

theorem getLast?_append_of_ne_nil (A B : List Char) (h : B ≠ []) :
    (A ++ B).getLast? = B.getLast? := by
  rw [List.getLast?_append]
  obtain ⟨v, hv⟩ := Option.isSome_iff_exists.mp (List.getLast?_isSome.mpr h)
  rw [hv]
  rfl

theorem segWF_take (segs : List (List Char)) (h : SegWF segs) (k : Nat) :
    SegWF (segs.take k) := by
  intro l₁ q l₂ he
  have hfull : segs = l₁ ++ q :: (l₂ ++ segs.drop k) := by
    conv_lhs => rw [← List.take_append_drop k segs]
    rw [he]
    simp
  obtain ⟨p1, p2, p3⟩ := h l₁ q (l₂ ++ segs.drop k) hfull
  refine ⟨p1, p2, fun hne => p3 ?_⟩
  cases l₂ with
  | nil => exact absurd rfl hne
  | cons b t => simp

theorem pathPush_nil_left (q : List Char) : pathPush [] q = q := by
  unfold pathPush
  split
  · rfl
  · rw [if_pos (Or.inl rfl)]
    rfl

theorem foldl_pathPush_flatten : ∀ (l₂ l₁ : List (List Char)), SegWF (l₁ ++ l₂) →
    List.foldl pathPush l₁.flatten l₂ = (l₁ ++ l₂).flatten := by
  intro l₂
  induction l₂ with
  | nil =>
    intro l₁ _
    simp
  | cons q l₂' ih =>
    intro l₁ hwf
    have hstep : pathPush l₁.flatten q = l₁.flatten ++ q := by
      rcases List.eq_nil_or_concat l₁ with rfl | ⟨init, last, hl⟩
      · simpa using pathPush_nil_left q
      · subst hl
        simp only [List.concat_eq_append] at hwf ⊢
        obtain ⟨hq1, hq2, _⟩ := hwf (init ++ [last]) q l₂' rfl
        obtain ⟨hlast1, _, hlast3⟩ := hwf init last (q :: l₂') (by simp)
        have hbuf : (init ++ [last]).flatten.getLast? = some '/' := by
          rw [List.flatten_append]
          rw [getLast?_append_of_ne_nil _ _ (by simpa using hlast1)]
          simpa using hlast3 (by simp)
        unfold pathPush
        rw [if_neg (hq2 (by simp)), if_pos (Or.inr hbuf)]
    simp only [List.foldl_cons, hstep]
    have hflat : l₁.flatten ++ q = (l₁ ++ [q]).flatten := by simp
    rw [hflat]
    have hwf' : SegWF ((l₁ ++ [q]) ++ l₂') := by simpa using hwf
    rw [ih (l₁ ++ [q]) hwf']
    simp

theorem flatten_aux_normals : ∀ ns : List (List Char),
    (splitPathAux (ns.map Component.normal)).flatten = joinSlash ns := by
  intro ns
  induction ns with
  | nil => rfl
  | cons n tl ih =>
    cases tl with
    | nil => simp [splitPathAux, joinSlash]
    | cons m tl' =>
      have hne : (List.map Component.normal (m :: tl')).isEmpty = false := by simp
      simp only [List.map_cons] at ih ⊢
      rw [show splitPathAux (Component.normal n :: Component.normal m ::
            List.map Component.normal tl') =
          (n ++ ['/']) :: splitPathAux (Component.normal m :: List.map Component.normal tl')
          from by simp [splitPathAux]]
      rw [List.flatten_cons, ih]
      rw [show joinSlash (n :: m :: tl') = n ++ '/' :: joinSlash (m :: tl') from rfl]
      simp

theorem pathNames_joinSlash : ∀ ns : List (List Char), (∀ n ∈ ns, n ≠ [] ∧ '/' ∉ n) →
    ns ≠ [] → pathNames (joinSlash ns) = ns := by
  intro ns
  induction ns with
  | nil =>
    intro _ h
    exact absurd rfl h
  | cons n tl ih =>
    intro hgood _
    obtain ⟨hn1, hn2⟩ := hgood n (List.mem_cons_self ..)
    cases tl with
    | nil =>
      unfold pathNames splitSlash
      rw [show joinSlash [n] = n from rfl]
      rw [show splitAux n [] = splitAux (n ++ []) [] from by simp]
      rw [splitAux_append_noslash n [] [] hn2]
      simp only [splitAux, List.append_nil, List.reverse_reverse]
      rw [List.filter_cons_of_pos (by simpa [List.isEmpty_iff] using hn1)]
      simp
    | cons m tl' =>
      unfold pathNames splitSlash
      rw [show joinSlash (n :: m :: tl') = n ++ '/' :: joinSlash (m :: tl') from rfl]
      rw [splitAux_append_noslash n ('/' :: joinSlash (m :: tl')) [] hn2]
      rw [show n.reverse ++ [] = n.reverse from by simp, splitAux_slash]
      simp only [List.reverse_reverse]
      rw [List.filter_cons_of_pos (by simpa [List.isEmpty_iff] using hn1)]
      have htl := ih (fun x hx => hgood x (List.mem_cons_of_mem _ hx)) (by simp)
      unfold pathNames splitSlash at htl
      rw [htl]

theorem joinSlash_head (n : List Char) (tl : List (List Char)) (h : n ≠ []) :
    (joinSlash (n :: tl)).head? = n.head? := by
  cases tl with
  | nil => rfl
  | cons m tl' =>
    rw [show joinSlash (n :: m :: tl') = n ++ '/' :: joinSlash (m :: tl') from rfl]
    exact head?_append_left n _ h

theorem components_joinSlash_rel (ns : List (List Char)) (hne : ns ≠ [])
    (hg : ∀ n ∈ ns, GoodName n) :
    components (joinSlash ns) = ns.map Component.normal := by
  obtain ⟨n, tl, rfl⟩ := List.exists_cons_of_ne_nil hne
  obtain ⟨hn1, hn2, hn3, hn4⟩ := hg n (List.mem_cons_self ..)
  have hhead : ¬ (joinSlash (n :: tl)).head? = some '/' := by
    rw [joinSlash_head n tl hn1]
    exact head?_ne_slash n hn1 hn2
  have hpn : pathNames (joinSlash (n :: tl)) = n :: tl :=
    pathNames_joinSlash _ (fun x hx => ⟨(hg x hx).1, (hg x hx).2.1⟩) (by simp)
  unfold components
  rw [if_neg hhead, hpn]
  simp only [if_neg hn3]
  exact convNames_map_normal _ (fun x hx => ⟨(hg x hx).2.2.1, (hg x hx).2.2.2⟩)

theorem components_abs (ns : List (List Char)) (hg : ∀ n ∈ ns, GoodName n) :
    components ('/' :: joinSlash ns) = Component.rootDir :: ns.map Component.normal := by
  unfold components
  rw [if_pos (show ('/' :: joinSlash ns).head? = some '/' from rfl)]
  congr 1
  have hsplit : pathNames ('/' :: joinSlash ns) = pathNames (joinSlash ns) := by
    unfold pathNames splitSlash
    rw [splitAux_slash]
    simp
  rw [hsplit]
  cases ns with
  | nil => rfl
  | cons n tl =>
    rw [pathNames_joinSlash _ (fun x hx => ⟨(hg x hx).1, (hg x hx).2.1⟩) (by simp)]
    exact convNames_map_normal _ (fun x hx => ⟨(hg x hx).2.2.1, (hg x hx).2.2.2⟩)

theorem convNames_extract : ∀ ns : List (List Char), (∀ n ∈ ns, n ≠ [] ∧ '/' ∉ n) →
    Component.parentDir ∉ convNames ns →
    ∃ ns' : List (List Char),
      convNames ns = ns'.map Component.normal ∧ ∀ n ∈ ns', GoodName n := by
  intro ns
  induction ns with
  | nil =>
    intro _ _
    exact ⟨[], rfl, by simp⟩
  | cons n tl ih =>
    intro hbasic hnp
    obtain ⟨h1, h2⟩ := hbasic n (List.mem_cons_self ..)
    by_cases hdot : n = ['.']
    · have hnone : nameToComp n = none := by
        unfold nameToComp
        rw [if_pos hdot]
      have hconv : convNames (n :: tl) = convNames tl := by
        simp [convNames, List.filterMap_cons_none hnone]
      rw [hconv] at hnp ⊢
      exact ih (fun x hx => hbasic x (List.mem_cons_of_mem _ hx)) hnp
    · by_cases hdd : n = ['.', '.']
      · exfalso
        apply hnp
        have hsome : nameToComp n = some Component.parentDir := by
          unfold nameToComp
          rw [if_neg hdot, if_pos hdd]
        rw [show convNames (n :: tl) = Component.parentDir :: convNames tl from by
          simp [convNames, List.filterMap_cons_some hsome]]
        exact List.mem_cons_self ..
      · have hsome : nameToComp n = some (Component.normal n) := by
          unfold nameToComp
          rw [if_neg hdot, if_neg hdd]
        have hconv : convNames (n :: tl) = Component.normal n :: convNames tl := by
          simp [convNames, List.filterMap_cons_some hsome]
        rw [hconv] at hnp ⊢
        obtain ⟨ns', heq, hg⟩ := ih (fun x hx => hbasic x (List.mem_cons_of_mem _ hx))
          (fun hmem => hnp (List.mem_cons_of_mem _ hmem))
        refine ⟨n :: ns', by rw [heq]; rfl, ?_⟩
        intro x hx
        rcases List.mem_cons.mp hx with rfl | hx
        · exact ⟨h1, h2, hdot, hdd⟩
        · exact hg x hx

theorem aux_normals_ne_nil (ns : List (List Char)) (h : ns ≠ []) :
    splitPathAux (ns.map Component.normal) ≠ [] := by
  obtain ⟨n, tl, rfl⟩ := List.exists_cons_of_ne_nil h
  simp [splitPathAux]

theorem mem_splitPathAux_nopfx : ∀ L : List Component, (∀ t, Component.pfx t ∉ L) →
    ∀ s ∈ splitPathAux L,
      s = ['/'] ∨ ∃ t, (s = t ∨ s = t ++ ['/']) ∧ Component.normal t ∈ L := by
  intro L
  induction L with
  | nil =>
    intro _ s hs
    exact absurd hs (by simp [splitPathAux])
  | cons c rest ih =>
    intro hnp s hs
    have hnp' : ∀ t, Component.pfx t ∉ rest :=
      fun t hmem => hnp t (List.mem_cons_of_mem _ hmem)
    cases c with
    | pfx t => exact absurd (List.mem_cons_self ..) (hnp t)
    | rootDir =>
      rw [show splitPathAux (Component.rootDir :: rest) = ['/'] :: splitPathAux rest from by
        simp [splitPathAux]] at hs
      rcases List.mem_cons.mp hs with rfl | hs
      · exact Or.inl rfl
      · rcases ih hnp' s hs with h | ⟨t, ht1, ht2⟩
        · exact Or.inl h
        · exact Or.inr ⟨t, ht1, List.mem_cons_of_mem _ ht2⟩
    | curDir =>
      rw [show splitPathAux (Component.curDir :: rest) = splitPathAux rest from by
        simp [splitPathAux]] at hs
      rcases ih hnp' s hs with h | ⟨t, ht1, ht2⟩
      · exact Or.inl h
      · exact Or.inr ⟨t, ht1, List.mem_cons_of_mem _ ht2⟩
    | parentDir =>
      rw [show splitPathAux (Component.parentDir :: rest) = splitPathAux rest from by
        simp [splitPathAux]] at hs
      rcases ih hnp' s hs with h | ⟨t, ht1, ht2⟩
      · exact Or.inl h
      · exact Or.inr ⟨t, ht1, List.mem_cons_of_mem _ ht2⟩
    | normal t =>
      rw [show splitPathAux (Component.normal t :: rest) =
          (if rest.isEmpty then t else t ++ ['/']) :: splitPathAux rest from by
        simp [splitPathAux]] at hs
      rcases List.mem_cons.mp hs with rfl | hs
      · by_cases hre : rest.isEmpty
        · rw [if_pos hre]
          exact Or.inr ⟨t, Or.inl rfl, List.mem_cons_self ..⟩
        · rw [if_neg hre]
          exact Or.inr ⟨t, Or.inr rfl, List.mem_cons_self ..⟩
      · rcases ih hnp' s hs with h | ⟨u, hu1, hu2⟩
        · exact Or.inl h
        · exact Or.inr ⟨u, hu1, List.mem_cons_of_mem _ hu2⟩

theorem comps_normal_good (p : List Char) (t : List Char)
    (h : Component.normal t ∈ components p) :
    t ≠ [] ∧ '/' ∉ t ∧ t ≠ ['.'] ∧ t ≠ ['.', '.'] := by
  rcases comps_mem p (Component.normal t) h with h1 | h1 | h1 | ⟨s, heq, hs1, hs2, hs3, hs4⟩
  · exact absurd h1 (by simp)
  · exact absurd h1 (by simp)
  · exact absurd h1 (by simp)
  · have : t = s := by
      simpa using heq
    subst this
    exact ⟨hs1, hs2, hs3, hs4⟩

theorem comps_no_pfx (p : List Char) (t : List Char) : Component.pfx t ∉ components p := by
  intro h
  rcases comps_mem p (Component.pfx t) h with h1 | h1 | h1 | ⟨s, heq, _⟩
  · exact absurd h1 (by simp)
  · exact absurd h1 (by simp)
  · exact absurd h1 (by simp)
  · exact absurd heq (by simp)

/-! ### Claim C3 -/

/-- C3 is false as stated: `split_path` drops `..` components, so for
`/a/../b` the concatenation of all segments is `/a/b`, which does not
denote the same path as the input (their component lists differ). -/
theorem c3_roundtrip_counterexample :
    ¬ pathEquiv (split_path ("/a/../b".toList)).flatten ("/a/../b".toList) := by
  decide

/-- C3 amended: `split_path` is total and never returns an empty list; when
the pre-fallback decomposition is empty the result is exactly the sentinel
`["."]`; no segment of the decomposition is a `.`/`..` pseudo-component
(with or without trailing separator); and the round-trip — concatenating
ALL segments re-parses to the very same component list — holds for every
path with at least one component none of which is `.` or `..`. -/
theorem c3_decompose_amended :
    (∀ p : List Char, split_path p ≠ [])
    ∧ (∀ p : List Char, splitPathAux (components p) = [] → split_path p = [['.']])
    ∧ (∀ (p : List Char) (s : List Char), s ∈ splitPathAux (components p) →
        s ≠ ['.'] ∧ s ≠ ['.', '.'] ∧ s ≠ ['.', '/'] ∧ s ≠ ['.', '.', '/'])
    ∧ (∀ p : List Char, components p ≠ [] →
        (∀ c ∈ components p, c ≠ Component.curDir ∧ c ≠ Component.parentDir) →
        pathEquiv (split_path p).flatten p) := by
  refine ⟨split_path_ne_nil, ?_, ?_, ?_⟩
  · intro p h
    unfold split_path
    rw [if_pos (by simp [h])]
  · intro p s hs
    rcases mem_splitPathAux_nopfx (components p) (comps_no_pfx p) s hs with rfl | ⟨t, ht, hmem⟩
    · refine ⟨by decide, by decide, by decide, by decide⟩
    · obtain ⟨ht1, ht2, ht3, ht4⟩ := comps_normal_good p t hmem
      rcases ht with rfl | rfl
      · refine ⟨ht3, ht4, ?_, ?_⟩
        · intro he
          exact ht2 (he ▸ (by decide : '/' ∈ ['.', '/']))
        · intro he
          exact ht2 (he ▸ (by decide : '/' ∈ ['.', '.', '/']))
      · have hlast : (t ++ ['/']).getLast? = some '/' := List.getLast?_concat _
        refine ⟨?_, ?_, ?_, ?_⟩
        · intro he
          rw [he] at hlast
          exact absurd hlast (by decide)
        · intro he
          rw [he] at hlast
          exact absurd hlast (by decide)
        · intro he
          rw [show (['.', '/'] : List Char) = ['.'] ++ ['/'] from rfl] at he
          exact ht3 ((List.append_left_inj _).mp he)
        · intro he
          rw [show (['.', '.', '/'] : List Char) = ['.', '.'] ++ ['/'] from rfl] at he
          exact ht4 ((List.append_left_inj _).mp he)
  · intro p hne hnd
    rcases components_shape p with he | ⟨ns, hbasic, hcase⟩
    · exact absurd he hne
    · rcases hcase with hc | hc | hc
      · have hnp : Component.parentDir ∉ convNames ns := by
          intro hmem
          exact (hnd Component.parentDir (by rw [hc]; exact List.mem_cons_of_mem _ hmem)).2 rfl
        obtain ⟨ns', hconv, hg⟩ := convNames_extract ns hbasic hnp
        have hcomps : components p = Component.rootDir :: ns'.map Component.normal := by
          rw [hc, hconv]
        have haux : splitPathAux (components p) =
            ['/'] :: splitPathAux (ns'.map Component.normal) := by
          rw [hcomps]
          simp [splitPathAux]
        have hsp : split_path p = splitPathAux (components p) := by
          unfold split_path
          rw [if_neg (by rw [haux]; simp)]
        unfold pathEquiv
        rw [hsp, haux]
        rw [show (['/'] :: splitPathAux (ns'.map Component.normal)).flatten =
            '/' :: joinSlash ns' from by simp [flatten_aux_normals]]
        rw [components_abs ns' hg, hcomps]
      · exfalso
        exact (hnd Component.curDir (by rw [hc]; exact List.mem_cons_self ..)).1 rfl
      · have hnp : Component.parentDir ∉ convNames ns := by
          intro hmem
          exact (hnd Component.parentDir (by rw [hc]; exact hmem)).2 rfl
        obtain ⟨ns', hconv, hg⟩ := convNames_extract ns hbasic hnp
        have hcomps : components p = ns'.map Component.normal := by
          rw [hc, hconv]
        have hne' : ns' ≠ [] := by
          intro h0
          rw [h0] at hcomps
          exact hne (by simpa using hcomps)
        have hauxne : splitPathAux (components p) ≠ [] := by
          rw [hcomps]
          exact aux_normals_ne_nil ns' hne'
        have hsp : split_path p = splitPathAux (components p) := by
          unfold split_path
          rw [if_neg (by simpa [List.isEmpty_iff] using hauxne)]
        unfold pathEquiv
        rw [hsp, hcomps, flatten_aux_normals]
        rw [components_joinSlash_rel ns' hne' hg]

theorem c3_decompose_amended_witness :
    components ("/home/user".toList) ≠ []
    ∧ (∀ c ∈ components ("/home/user".toList),
        c ≠ Component.curDir ∧ c ≠ Component.parentDir)
    ∧ pathEquiv (split_path ("/home/user".toList)).flatten ("/home/user".toList) :=
  ⟨by decide, by decide, c3_decompose_amended.2.2.2 _ (by decide) (by decide)⟩

/-! ### Claim C8 -/

/-- C8: `selected_path()` is the concatenation, in order, of the segments
`[0 .. current_index]` inclusive (for any well-formed segment list, which
`split_path` always produces); on the example segments
`["/", "home/", "user/", "project"]` the initial index is 3 and two
left-moves yield index 1 with `selected_path() = "/home/"`. -/
theorem c8_selected_path_spec :
    (∀ p : List Char, SegWF (split_path p))
    ∧ (∀ st : AppState, SegWF st.path_parts →
        st.selected_path = (st.path_parts.take (st.current_index + 1)).flatten)
    ∧ (exState.current_index = 3
      ∧ ((exState.move_by (-1)).move_by (-1)).current_index = 1
      ∧ ((exState.move_by (-1)).move_by (-1)).selected_path = "/home/".toList) := by
  refine ⟨split_path_SegWF, ?_, by decide, by decide, by decide⟩
  intro st hwf
  unfold AppState.selected_path
  have h := foldl_pathPush_flatten (st.path_parts.take (st.current_index + 1)) []
    (by simpa using segWF_take st.path_parts hwf (st.current_index + 1))
  simpa using h

theorem c8_selected_path_spec_witness :
    exState.selected_path = (exState.path_parts.take (exState.current_index + 1)).flatten :=
  c8_selected_path_spec.2.1 exState
    (c8_selected_path_spec.1 ("/home/user/project".toList))

theorem c9_select_at_column_spec_witness :
    (3 : Nat) < 65536
    ∧ (exState.path_parts.map List.length).sum < 65536
    ∧ exState.path_parts ≠ []
    ∧ (exState.select_part_at_column 3).current_index = 1 :=
  ⟨by decide, by decide, by decide,
    (c9_select_at_column_spec exState 3 (by decide) (by decide) (by decide)).2⟩

/-- C1: starting from the state built over any path's decomposition (which
is never empty), any finite sequence of SelectionModel operations —
`move_by`, `move_to_start`, `move_to_end`, `move_to_middle`, `push_digit`,
`find_and_select`, `jump`, `repeat_jump`, `select_at_column` — preserves
`0 ≤ current_index < len(segments)`. -/
theorem c1_selection_invariant (p : List Char) (ops : List Op) :
    0 ≤ (ops.foldl (fun s o => applyOp o s) (AppState.new (split_path p))).current_index
    ∧ (ops.foldl (fun s o => applyOp o s) (AppState.new (split_path p))).current_index <
        (ops.foldl (fun s o => applyOp o s) (AppState.new (split_path p))).path_parts.length := by
  have hne : (AppState.new (split_path p)).path_parts ≠ [] := split_path_ne_nil p
  have hlen : 1 ≤ (split_path p).length := List.length_pos.mpr (split_path_ne_nil p)
  have hci : (AppState.new (split_path p)).current_index <
      (AppState.new (split_path p)).path_parts.length := by
    simp only [AppState.new]
    omega
  obtain ⟨h1, h2⟩ := foldl_applyOp_invariant ops (AppState.new (split_path p)) hne hci
  refine ⟨Nat.zero_le _, ?_⟩
  rw [h1]
  exact h2

end Pd
